import Mathlib

/-!
Verification of the `mobile-block` repository (`mobile_block.py`).

Strings are embedded as lists of Unicode code points (`Str := List Nat`);
each Python string is the list of the code points of its characters.
Code-point constants used throughout: w = 119, i = 105, o = 111, s = 115,
e = 101, k = 107, g = 103, underscore = 95, digits zero..nine = 48..57,
K = 75, E = 69, G = 71, B = 66.
-/

/-- A Python string, embedded as the list of the code points of its characters. -/
abbrev Str := List Nat

/-- `str.lower()` on one character: ASCII uppercase letters (65..90) are
shifted down by 32, everything else is unchanged. -/
def pyLower (c : Nat) : Nat :=
  if 65 ≤ c ∧ c ≤ 90 then c + 32 else c

/-- `str.lower()` on a whole string. -/
def lowerList (s : Str) : Str := s.map pyLower

/-- Is `c` the code point of a decimal digit (regex `\d` on ASCII)? -/
def isDig (c : Nat) : Bool := 48 ≤ c && c ≤ 57

/-- Value of a decimal digit string under Python `int`: left fold
`acc ↦ 10 * acc + digit`. -/
def digitsVal (acc : Nat) : Str → Nat
  | [] => acc
  | c :: cs => digitsVal (10 * acc + (c - 48)) cs

/-- Decimal rendering of a natural number (Python `str(n)` / f-string
interpolation), big-endian, no leading zeros.  `fuel` only drives the
recursion; `natRepr` supplies enough of it. -/
def natReprAux (fuel n : Nat) : Str :=
  match fuel with
  | 0 => []
  | fuel + 1 =>
    if n < 10 then [48 + n] else natReprAux fuel (n / 10) ++ [48 + n % 10]

/-- Decimal rendering of a natural number, as emitted by the f-string interpolation of each field into its tagged segment. -/
def natRepr (n : Nat) : Str := natReprAux (n + 1) n

/-- One tag-plus-digits field of the block-id regex: the literal `tag`
character followed by one-or-more digits (`tag(\d+)`), matched greedily at
the start of `cs`.  Returns the captured integer and the rest of the input. -/
def matchTag (tag : Nat) (cs : Str) : Option (Nat × Str) :=
  match cs with
  | [] => none
  | c :: rest =>
    if c = tag then
      if (rest.takeWhile isDig).isEmpty then none
      else some (digitsVal 0 (rest.takeWhile isDig), rest.dropWhile isDig)
    else none

/-- A `_` separator followed by a tag-plus-digits field (`_tag(\d+)`). -/
def matchSepTag (tag : Nat) (cs : Str) : Option (Nat × Str) :=
  match cs with
  | c :: rest => if c = 95 then matchTag tag rest else none
  | [] => none

/-- Match a sequence of `_tag(\d+)` fields, one per tag in `ts`, returning
the captured integers in order and the rest of the input. -/
def matchTags (ts : List Nat) (cs : Str) : Option (List Nat × Str) :=
  match ts with
  | [] => some ([], cs)
  | t :: ts =>
    match matchSepTag t cs with
    | none => none
    | some (v, r) =>
      match matchTags ts r with
      | none => none
      | some (vs, r') => some (v :: vs, r')

/-- Attempt the full pattern `w(\d+)_i(\d+)_o(\d+)_s(\d+)_e(\d+)_k(\d+)_g(\d+)`
at the start of `cs` (the body of one regex match attempt). -/
def matchAt (cs : Str) : Option (List Nat × Str) :=
  match matchTag 119 cs with
  | none => none
  | some (w, r) =>
    match matchTags [105, 111, 115, 101, 107, 103] r with
    | none => none
    | some (vs, r') => some (w :: vs, r')

/-- The first (leftmost) match of the block-id pattern in `cs`: the semantics
of `re.findall(...)[0]` as used by `MobileBlock.factory`. -/
def findMatch (cs : Str) : Option (List Nat × Str) :=
  match cs with
  | [] => none
  | c :: rest =>
    match matchAt (c :: rest) with
    | some r => some r
    | none => findMatch rest

/-- The `MobileBlock` data: the seven structural fields stored by
`MobileBlock.__init__` (`expansion`, `kernel`, `groups` default to 1, 3, 1). -/
structure MobileBlock where
  input_size : Nat
  in_channels : Nat
  out_channels : Nat
  stride : Nat
  expansion : Nat := 1
  kernel : Nat := 3
  groups : Nat := 1
deriving DecidableEq

/-- `MobileBlock(input_size, in_channels, out_channels, stride)` with the
remaining constructor arguments left at their Python defaults. -/
def MobileBlock.mk4 (input_size in_channels out_channels stride : Nat) : MobileBlock :=
  { input_size := input_size, in_channels := in_channels,
    out_channels := out_channels, stride := stride }

/-- The `block_id` property: the underscore-join of the seven tagged decimal
segments, in order w input_size, i in_channels, o out_channels, s stride,
e expansion, k kernel, g groups. -/
def MobileBlock.block_id (b : MobileBlock) : Str :=
  [119] ++ natRepr b.input_size ++
  [95, 105] ++ natRepr b.in_channels ++
  [95, 111] ++ natRepr b.out_channels ++
  [95, 115] ++ natRepr b.stride ++
  [95, 101] ++ natRepr b.expansion ++
  [95, 107] ++ natRepr b.kernel ++
  [95, 103] ++ natRepr b.groups

/-- The code points of `"ParseError: "`, the prefix of the message of the
`ValueError` raised by `MobileBlock.factory`. -/
def parseErrorMsg (s : Str) : Str :=
  [80, 97, 114, 115, 101, 69, 114, 114, 111, 114, 58, 32] ++ s

/-- `MobileBlock.factory(block_id)`: find the first match of the seven-field
pattern in the lower-cased input; on failure raise
a `ValueError` whose message is ParseError, a colon-space, and the offending
input; on success build the block from the
seven captured integers. -/
def MobileBlock.factory (block_id : Str) : Except Str MobileBlock :=
  match findMatch (lowerList block_id) with
  | some ([w, i, o, s, e, k, g], _) =>
    Except.ok { input_size := w, in_channels := i, out_channels := o,
                stride := s, expansion := e, kernel := k, groups := g }
  | _ => Except.error (parseErrorMsg block_id)

/-- `x.view(n, g, c // g, h, w)`: split the channel axis into a group axis of
size `g` and a within-group axis of size `cg = c // g` (row-major). -/
def view5 {α : Type} (cg : Nat) (x : Nat → Nat → Nat → Nat → α) :
    Nat → Nat → Nat → Nat → Nat → α :=
  fun b j l y z => x b (j * cg + l) y z

/-- `.transpose(1, 2)`: swap the group axis and the within-group axis. -/
def transpose12 {α : Type} (t : Nat → Nat → Nat → Nat → Nat → α) :
    Nat → Nat → Nat → Nat → Nat → α :=
  fun b l j y z => t b j l y z

/-- the final `.view(n, c, h, w)`: flatten the leading pair of channel axes,
now of sizes `(c // g, g)`, back into one channel axis (row-major). -/
def view4 {α : Type} (g : Nat) (t : Nat → Nat → Nat → Nat → Nat → α) :
    Nat → Nat → Nat → Nat → α :=
  fun b i y z => t b (i / g) (i % g) y z

/-- `ShuffleBlock(groups=g).forward(x)` on an array of shape `(n, c, h, w)`. -/
def ShuffleBlock.forward {α : Type} (g n c h w : Nat)
    (x : Nat → Nat → Nat → Nat → α) : Nat → Nat → Nat → Nat → α :=
  view4 g (transpose12 (view5 (c / g) x))

/-- Shape of a 4-axis array. -/
structure Shape where
  n : Nat
  c : Nat
  h : Nat
  w : Nat
deriving DecidableEq

/-- One stage of the `nn.Sequential` pipeline built in `MobileBlock.__init__`. -/
inductive Stage where
  | conv2d (inC outC kernel stride padding groups : Nat)
  | batchNorm2d (numFeatures : Nat)
  | relu
  | shuffle (groups : Nat)
  | emptySeq
deriving DecidableEq

/-- Shape behaviour of a single stage (`none` = the stage rejects the input). -/
def Stage.shape : Stage → Shape → Option Shape
  | .conv2d inC outC kernel stride padding groups, s =>
    if s.c = inC ∧ 0 < groups ∧ inC % groups = 0 ∧ outC % groups = 0 ∧
        0 < kernel ∧ 0 < stride ∧
        kernel ≤ s.h + 2 * padding ∧ kernel ≤ s.w + 2 * padding then
      some ⟨s.n, outC, (s.h + 2 * padding - kernel) / stride + 1,
            (s.w + 2 * padding - kernel) / stride + 1⟩
    else none
  | .batchNorm2d numFeatures, s => if s.c = numFeatures then some s else none
  | .relu, s => some s
  | .shuffle groups, s =>
    if 0 < groups ∧ s.c % groups = 0 then some s else none
  | .emptySeq, s => some s

/-- The ordered stage list built by `MobileBlock.__init__` (`self.block`):
pointwise expansion, shuffle-or-nothing, depthwise, pointwise projection. -/
def MobileBlock.stages (b : MobileBlock) : List Stage :=
  [Stage.conv2d b.in_channels (b.in_channels * b.expansion) 1 1 0 b.groups,
   Stage.batchNorm2d (b.in_channels * b.expansion),
   Stage.relu,
   if b.groups > 1 then Stage.shuffle b.groups else Stage.emptySeq,
   Stage.conv2d (b.in_channels * b.expansion) (b.in_channels * b.expansion)
     b.kernel b.stride (b.kernel / 2) (b.in_channels * b.expansion),
   Stage.batchNorm2d (b.in_channels * b.expansion),
   Stage.relu,
   Stage.conv2d (b.in_channels * b.expansion) b.out_channels 1 1 0 b.groups,
   Stage.batchNorm2d b.out_channels]

/-- Shape behaviour of `MobileBlock.forward`: feed the input shape through the
pipeline stages in order. -/
def MobileBlock.forwardShape (b : MobileBlock) (s : Shape) : Option Shape :=
  b.stages.foldl (fun acc st => acc.bind st.shape) (some s)

/-- Value-level behaviour of the stage at the shuffle position of the
pipeline (`ShuffleBlock(groups=groups) if groups > 1 else nn.Sequential()`):
an empty `nn.Sequential()` applies no modules, i.e. is the identity. -/
def MobileBlock.shuffleStageForward (b : MobileBlock) {α : Type} (n c h w : Nat)
    (x : Nat → Nat → Nat → Nat → α) : Nat → Nat → Nat → Nat → α :=
  if 1 < b.groups then ShuffleBlock.forward b.groups n c h w x else x

/-- Modelled from the spec: the result of invoking a factory — either a
standard `MobileBlock` pipeline, or the degenerate `SkipBlock` identity /
shortcut variant (whose internals are out of scope; only its identity as a
distinct variant carrying the runtime shape arguments is modelled). -/
inductive BuiltBlock where
  | mobile (b : MobileBlock)
  | skip (input_size in_channels out_channels stride : Nat)
deriving DecidableEq

/-- Modelled from the spec: what a factory name denotes — a
`K<kernel>E<expansion>G<groups>Block` family or the literal `SkipBlock`. -/
inductive FactoryKind where
  | kegBlock (kernel expansion groups : Nat)
  | skipBlock
deriving DecidableEq

/-- Modelled from the spec: a named, partially-bound constructor; owns its
verbatim `block_name` and the parsed kind. -/
structure BlockFactory where
  block_name : Str
  kind : FactoryKind
deriving DecidableEq

/-- The code points of `"SkipBlock"`. -/
def strSkipBlock : Str := [83, 107, 105, 112, 66, 108, 111, 99, 107]

/-- The code points of `"Block"`. -/
def strBlockWord : Str := [66, 108, 111, 99, 107]

/-- Modelled from the spec: parse a factory name — the literal `SkipBlock`,
or `K(\d+)E(\d+)G(\d+)Block` spanning the whole name (`K` = 75, `E` = 69,
`G` = 71). -/
def parseFactoryName (name : Str) : Option FactoryKind :=
  if name = strSkipBlock then some FactoryKind.skipBlock
  else
    match matchTag 75 name with
    | none => none
    | some (k, r) =>
      match matchTag 69 r with
      | none => none
      | some (e, r') =>
        match matchTag 71 r' with
        | none => none
        | some (g, r'') =>
          if r'' = strBlockWord then some (FactoryKind.kegBlock k e g) else none

/-- Modelled from the spec: `BlockFactory.factory(block_name)` — parse the
name, keep it verbatim in `block_name`, fail with a `ParseError` carrying the
offending name otherwise. -/
def BlockFactory.factory (block_name : Str) : Except Str BlockFactory :=
  match parseFactoryName block_name with
  | some kind => Except.ok ⟨block_name, kind⟩
  | none => Except.error (parseErrorMsg block_name)

/-- Modelled from the spec: invoking a factory with the late-bound shape
arguments — a `K..E..G..Block` factory builds a `MobileBlock` from its
captured kernel/expansion/groups plus the supplied arguments; the `SkipBlock`
factory builds the skip variant. -/
def BlockFactory.call (f : BlockFactory)
    (input_size in_channels out_channels stride : Nat) : BuiltBlock :=
  match f.kind with
  | FactoryKind.kegBlock k e g =>
    BuiltBlock.mobile { input_size := input_size, in_channels := in_channels,
                        out_channels := out_channels, stride := stride,
                        expansion := e, kernel := k, groups := g }
  | FactoryKind.skipBlock =>
    BuiltBlock.skip input_size in_channels out_channels stride

/-- A canonically formatted decimal value: nonempty, all digits, and no
leading zero (a leading zero digit only when the whole value is the single
digit zero). -/
def CanonicalDigits (ds : Str) : Prop :=
  ds ≠ [] ∧ (∀ c ∈ ds, isDig c = true) ∧ ∀ rest, ds = 48 :: rest → rest = []

/-- A nonempty all-digits capture group (`(\d+)`). -/
def NonemptyDigits (ds : Str) : Prop :=
  ds ≠ [] ∧ ∀ c ∈ ds, isDig c = true

/-- `tagged [(t1, d1), (t2, d2), ...]` is `_t1 d1 _t2 d2 ...`: the shape of
the tail of the block-id pattern after the leading `w(\d+)`. -/
def tagged : List (Nat × Str) → Str
  | [] => []
  | (t, ds) :: rest => 95 :: t :: (ds ++ tagged rest)

/-- The language of the full regex
`w(\d+)_i(\d+)_o(\d+)_s(\d+)_e(\d+)_k(\d+)_g(\d+)`: an exact match is a `w`
followed by a digit group and six `_tag(\d+)` fields with tags
`i, o, s, e, k, g`. -/
def GrammarExact (m : Str) : Prop :=
  ∃ d1 ps, NonemptyDigits d1 ∧ (∀ p ∈ ps, NonemptyDigits p.2) ∧
    ps.map Prod.fst = [105, 111, 115, 101, 107, 103] ∧
    m = 119 :: (d1 ++ tagged ps)

/-- No leading digit: the continuation cannot extend a greedy `(\d+)`. -/
def NoDigitHead (r : Str) : Prop :=
  ∀ c, r.head? = some c → isDig c = false

/-- The channel-index map induced by `ShuffleBlock.forward`: output channel
`i` reads input channel `(i % g) * (c / g) + i / g`. -/
def shuffleIdx (g c i : Nat) : Nat := (i % g) * (c / g) + i / g

/-- Modelled from the spec: a valid factory name — `K<int>E<int>G<int>Block`
or the literal `SkipBlock`. -/
def ValidFactoryName (name : Str) : Prop :=
  (∃ d1 d2 d3, NonemptyDigits d1 ∧ NonemptyDigits d2 ∧ NonemptyDigits d3 ∧
    name = 75 :: (d1 ++ 69 :: (d2 ++ 71 :: (d3 ++ strBlockWord)))) ∨
  name = strSkipBlock

/-- The canonical block-id format (spec §4.1 / §6): seven tagged decimal
fields in fixed order, lowercase tags, values without leading zeros. -/
def CanonicalId (t : Str) : Prop :=
  ∃ d1 d2 d3 d4 d5 d6 d7 : Str,
    CanonicalDigits d1 ∧ CanonicalDigits d2 ∧ CanonicalDigits d3 ∧
    CanonicalDigits d4 ∧ CanonicalDigits d5 ∧ CanonicalDigits d6 ∧
    CanonicalDigits d7 ∧
    t = [119] ++ d1 ++ [95, 105] ++ d2 ++ [95, 111] ++ d3 ++ [95, 115] ++ d4 ++
      [95, 101] ++ d5 ++ [95, 107] ++ d6 ++ [95, 103] ++ d7

/-- `"not_a_valid_id"` -/
def strNotAValidId : Str := [110, 111, 116, 95, 97, 95, 118, 97, 108, 105, 100, 95, 105, 100]

/-- `"W112_I16_O32_S1_E10_K3_G2"` -/
def strUpperId : Str := [87, 49, 49, 50, 95, 73, 49, 54, 95, 79, 51, 50, 95, 83, 49, 95, 69, 49, 48, 95, 75, 51, 95, 71, 50]

/-- `"w112_i16_o32_s1_e10_k3_g2"` -/
def strW112Id : Str := [119, 49, 49, 50, 95, 105, 49, 54, 95, 111, 51, 50, 95, 115, 49, 95, 101, 49, 48, 95, 107, 51, 95, 103, 50]

/-- `"K3E10G2Block"` -/
def strK3E10G2Block : Str := [75, 51, 69, 49, 48, 71, 50, 66, 108, 111, 99, 107]

/-- `"xxw1_i2_o3_s4_e5_k6_g7yy"` -/
def strJunkedId : Str := [120, 120, 119, 49, 95, 105, 50, 95, 111, 51, 95, 115, 52, 95, 101, 53, 95, 107, 54, 95, 103, 55, 121, 121]

/-- `"w1_i2_o3_s4_e5_k6_g7w8_i9_o10_s11_e12_k13_g14"` (two candidate matches). -/
def strDoubleId : Str := [119, 49, 95, 105, 50, 95, 111, 51, 95, 115, 52, 95, 101, 53, 95, 107, 54, 95, 103, 55, 119, 56, 95, 105, 57, 95, 111, 49, 48, 95, 115, 49, 49, 95, 101, 49, 50, 95, 107, 49, 51, 95, 103, 49, 52]

/-! ## Theorems -/

theorem digitsVal_nil (a : Nat) : digitsVal a [] = a := rfl

theorem digitsVal_cons (a c : Nat) (cs : Str) :
    digitsVal a (c :: cs) = digitsVal (10 * a + (c - 48)) cs := rfl

theorem natReprAux_succ (fuel n : Nat) :
    natReprAux (fuel + 1) n =
      if n < 10 then [48 + n] else natReprAux fuel (n / 10) ++ [48 + n % 10] := rfl

theorem natRepr_zero : natRepr 0 = [48] := rfl

theorem digitsVal_map_add48 (D : List Nat) (a : Nat) :
    digitsVal a (D.map (fun d => 48 + d)) =
      Nat.ofDigits 10 D.reverse + a * 10 ^ D.length := by
  induction D generalizing a with
  | nil => simp [digitsVal_nil, Nat.ofDigits]
  | cons d D ih =>
    rw [List.map_cons, digitsVal_cons, ih]
    simp only [List.reverse_cons, List.length_cons]
    rw [Nat.ofDigits_append, Nat.ofDigits_singleton]
    have h48 : 10 * a + (48 + d - 48) = 10 * a + d := by omega
    rw [h48, List.length_reverse]
    ring

theorem natReprAux_eq (fuel : Nat) : ∀ n : Nat, n < fuel → n ≠ 0 →
    natReprAux fuel n = (Nat.digits 10 n).reverse.map (fun d => 48 + d) := by
  induction fuel with
  | zero => intro n h _; omega
  | succ fuel ih =>
    intro n hlt hne
    by_cases h10 : n < 10
    · rw [natReprAux_succ, if_pos h10, Nat.digits_of_lt 10 n hne h10]
      simp
    · rw [natReprAux_succ, if_neg h10]
      have hpos : 0 < n := Nat.pos_of_ne_zero hne
      have hdivlt : n / 10 < fuel := by
        have := Nat.div_lt_self hpos (by omega : 1 < 10)
        omega
      have hdne : n / 10 ≠ 0 := (Nat.div_pos (by omega) (by omega)).ne'
      rw [ih (n / 10) hdivlt hdne, Nat.digits_def' (by omega : 1 < 10) hpos]
      simp

theorem digitsVal_natRepr (n : Nat) : digitsVal 0 (natRepr n) = n := by
  rcases Nat.eq_zero_or_pos n with h | h
  · subst h; rfl
  · rw [natRepr, natReprAux_eq (n + 1) n (by omega) (by omega),
      digitsVal_map_add48, List.reverse_reverse, Nat.ofDigits_digits]
    simp

theorem natRepr_ne_nil (n : Nat) : natRepr n ≠ [] := by
  rcases Nat.eq_zero_or_pos n with h | h
  · subst h; rw [natRepr_zero]; simp
  · rw [natRepr, natReprAux_eq (n + 1) n (by omega) (by omega)]
    simp [Nat.digits_ne_nil_iff_ne_zero.mpr (by omega : n ≠ 0)]

theorem natRepr_digits (n : Nat) : ∀ c ∈ natRepr n, isDig c = true := by
  rcases Nat.eq_zero_or_pos n with h | h
  · subst h; intro c hc
    rw [natRepr_zero] at hc
    simp at hc
    subst hc; rfl
  · rw [natRepr, natReprAux_eq (n + 1) n (by omega) (by omega)]
    intro c hc
    simp only [List.mem_map, List.mem_reverse] at hc
    obtain ⟨d, hd, rfl⟩ := hc
    have : d < 10 := Nat.digits_lt_base (by omega) hd
    simp [isDig]
    omega

theorem natRepr_no_leading_zero (n : Nat) :
    ∀ rest, natRepr n = 48 :: rest → rest = [] := by
  rcases Nat.eq_zero_or_pos n with h | h
  · subst h; intro rest hr
    rw [natRepr_zero] at hr
    simpa using hr
  · intro rest hr
    rw [natRepr, natReprAux_eq (n + 1) n (by omega) (by omega)] at hr
    have hne : Nat.digits 10 n ≠ [] :=
      Nat.digits_ne_nil_iff_ne_zero.mpr (by omega)
    rcases hrev : (Nat.digits 10 n).reverse with _ | ⟨d, t⟩
    · rw [hrev] at hr; simp at hr
    · rw [hrev] at hr
      simp only [List.map_cons, List.cons.injEq] at hr
      have hd0 : d = 0 := by omega
      have hlast1 : (Nat.digits 10 n).getLast? = some d := by
        rw [← List.head?_reverse, hrev]; rfl
      have hlast2 : (Nat.digits 10 n).getLast? = some ((Nat.digits 10 n).getLast hne) :=
        List.getLast?_eq_getLast _ hne
      have hgl : (Nat.digits 10 n).getLast hne = d := by
        rw [hlast1] at hlast2
        exact (Option.some_inj.mp hlast2).symm
      have := @Nat.getLast_digit_ne_zero 10 n (by omega)
      rw [hgl] at this
      exact absurd hd0 this

theorem canonicalDigits_natRepr (n : Nat) : CanonicalDigits (natRepr n) :=
  ⟨natRepr_ne_nil n, natRepr_digits n, natRepr_no_leading_zero n⟩

theorem natRepr_digitsVal (ds : Str) (h : CanonicalDigits ds) :
    natRepr (digitsVal 0 ds) = ds := by
  obtain ⟨hne, hdig, hlz⟩ := h
  rcases ds with _ | ⟨c0, tl⟩
  · exact absurd rfl hne
  by_cases hc0 : c0 = 48
  · subst hc0
    have htl : tl = [] := hlz tl rfl
    subst htl
    rfl
  · have h48 : ∀ c ∈ c0 :: tl, 48 ≤ c ∧ c ≤ 57 := by
      intro c hc
      have := hdig c hc
      simp [isDig] at this
      omega
    have hds : (c0 :: tl).map ((fun d => 48 + d) ∘ (fun c => c - 48)) = c0 :: tl := by
      have : ∀ c ∈ c0 :: tl, ((fun d => 48 + d) ∘ (fun c => c - 48)) c = id c := by
        intro c hc
        have := h48 c hc
        simp
        omega
      rw [List.map_congr_left this, List.map_id]
    set D : List Nat := (c0 :: tl).map (fun c => c - 48) with hD
    have hds' : D.map (fun d => 48 + d) = c0 :: tl := by
      rw [hD, List.map_map]
      exact hds
    have hval : digitsVal 0 (c0 :: tl) = Nat.ofDigits 10 D.reverse := by
      rw [← hds', digitsVal_map_add48]
      simp
    have hlt : ∀ d ∈ D.reverse, d < 10 := by
      intro d hd
      rw [List.mem_reverse, hD] at hd
      simp only [List.mem_map] at hd
      obtain ⟨c, hc, rfl⟩ := hd
      have := h48 c hc
      omega
    have hDne : D ≠ [] := by rw [hD]; simp
    have hrevne : D.reverse ≠ [] := by
      intro hcon
      exact hDne (by simpa using congrArg List.reverse hcon)
    have hhead : D.head? = some (c0 - 48) := by rw [hD]; rfl
    have hlast : ∀ hx : D.reverse ≠ [], D.reverse.getLast hx ≠ 0 := by
      intro hx
      have h1 : D.reverse.getLast? = D.head? := by
        rw [← List.head?_reverse, List.reverse_reverse]
      rw [List.getLast?_eq_getLast _ hx, hhead] at h1
      have : D.reverse.getLast hx = c0 - 48 := Option.some_inj.mp h1
      rw [this]
      have := h48 c0 (by simp)
      omega
    have hdig10 : Nat.digits 10 (Nat.ofDigits 10 D.reverse) = D.reverse :=
      Nat.digits_ofDigits 10 (by norm_num) D.reverse hlt hlast
    have hnz : Nat.ofDigits 10 D.reverse ≠ 0 := by
      intro hz
      rw [hz] at hdig10
      exact hrevne (by simpa using hdig10.symm)
    rw [hval, natRepr,
      natReprAux_eq _ _ (by omega) hnz, hdig10, List.reverse_reverse, hds']

theorem pyLower_eq_self {c : Nat} (h : ¬(65 ≤ c ∧ c ≤ 90)) : pyLower c = c := by
  rw [pyLower, if_neg h]

theorem pyLower_idem (c : Nat) : pyLower (pyLower c) = pyLower c := by
  rw [pyLower, pyLower]
  split_ifs <;> omega

theorem lowerList_eq_self {s : Str} (h : ∀ c ∈ s, ¬(65 ≤ c ∧ c ≤ 90)) :
    lowerList s = s := by
  show s.map pyLower = s
  have : ∀ c ∈ s, pyLower c = id c := fun c hc => pyLower_eq_self (h c hc)
  rw [List.map_congr_left this, List.map_id]

theorem lowerList_idem (s : Str) : lowerList (lowerList s) = lowerList s := by
  show (s.map pyLower).map pyLower = s.map pyLower
  rw [List.map_map]
  exact List.map_congr_left (fun c _ => pyLower_idem c)

theorem block_id_low (b : MobileBlock) :
    ∀ c ∈ b.block_id, c ≤ 57 ∨ 95 ≤ c := by
  intro c hc
  rw [MobileBlock.block_id] at hc
  simp only [List.mem_append, List.mem_cons, List.not_mem_nil, or_false, or_assoc] at hc
  rcases hc with h|h|h|h|h|h|h|h|h|h|h|h|h|h|h|h|h|h|h|h <;>
    first
      | (have hx := natRepr_digits _ c h; simp only [isDig, Bool.and_eq_true,
          decide_eq_true_eq] at hx; omega)
      | omega

theorem block_id_not_upper (b : MobileBlock) :
    ∀ c ∈ b.block_id, ¬(65 ≤ c ∧ c ≤ 90) := by
  intro c hc
  have := block_id_low b c hc
  omega

theorem lowerList_block_id (b : MobileBlock) :
    lowerList b.block_id = b.block_id :=
  lowerList_eq_self (block_id_not_upper b)

theorem noDigitHead_nil : NoDigitHead [] := by
  intro c hc
  simp at hc

theorem noDigitHead_tagged (ps : List (Nat × Str)) (hne : ps ≠ []) (r : Str) :
    NoDigitHead (tagged ps ++ r) := by
  rcases ps with _ | ⟨⟨t, ds⟩, rest⟩
  · exact absurd rfl hne
  · intro c hc
    rw [tagged] at hc
    simp only [List.cons_append, List.head?_cons, Option.some_inj] at hc
    subst hc
    rfl

theorem takeWhile_digits_append {ds : Str} (h : ∀ c ∈ ds, isDig c = true)
    (r : Str) : (ds ++ r).takeWhile isDig = ds ++ r.takeWhile isDig := by
  induction ds with
  | nil => simp
  | cons c cs ih =>
    rw [List.cons_append, List.takeWhile_cons, if_pos (h c (by simp)),
      ih (fun d hd => h d (by simp [hd])), List.cons_append]

theorem dropWhile_digits_append {ds : Str} (h : ∀ c ∈ ds, isDig c = true)
    (r : Str) : (ds ++ r).dropWhile isDig = r.dropWhile isDig := by
  induction ds with
  | nil => simp
  | cons c cs ih =>
    rw [List.cons_append, List.dropWhile_cons, if_pos (h c (by simp))]
    exact ih (fun d hd => h d (by simp [hd]))

theorem takeWhile_noDigit {r : Str} (h : NoDigitHead r) :
    r.takeWhile isDig = [] := by
  rcases r with _ | ⟨c, cs⟩
  · rfl
  · rw [List.takeWhile_cons, if_neg]
    rw [h c rfl]
    simp

theorem dropWhile_noDigit {r : Str} (h : NoDigitHead r) :
    r.dropWhile isDig = r := by
  rcases r with _ | ⟨c, cs⟩
  · rfl
  · rw [List.dropWhile_cons, if_neg]
    rw [h c rfl]
    simp

theorem matchTag_precise (tag : Nat) {ds : Str} (h1 : NonemptyDigits ds)
    {r : Str} (h2 : NoDigitHead r) :
    matchTag tag (tag :: (ds ++ r)) = some (digitsVal 0 ds, r) := by
  rw [matchTag]
  simp only [if_pos rfl]
  rw [takeWhile_digits_append h1.2, takeWhile_noDigit h2, List.append_nil,
    dropWhile_digits_append h1.2, dropWhile_noDigit h2,
    List.isEmpty_eq_false.mpr h1.1]
  simp

theorem matchTag_isSome (tag : Nat) {ds : Str} (h1 : NonemptyDigits ds)
    (r : Str) : ∃ v r', matchTag tag (tag :: (ds ++ r)) = some (v, r') := by
  rw [matchTag]
  simp only [if_pos rfl]
  rw [takeWhile_digits_append h1.2]
  have : (ds ++ r.takeWhile isDig).isEmpty = false :=
    List.isEmpty_eq_false.mpr (by
      intro hcon
      exact h1.1 (List.append_eq_nil.mp hcon).1)
  rw [this]
  exact ⟨_, _, rfl⟩

theorem matchTag_inv {tag : Nat} {cs : Str} {v : Nat} {r : Str}
    (h : matchTag tag cs = some (v, r)) :
    ∃ ds, NonemptyDigits ds ∧ cs = tag :: (ds ++ r) ∧ v = digitsVal 0 ds := by
  rcases cs with _ | ⟨c, rest⟩
  · rw [show matchTag tag ([] : Str) = none from rfl] at h
    exact Option.noConfusion h
  · simp only [matchTag] at h
    by_cases hct : c = tag
    · rw [if_pos hct] at h
      subst hct
      by_cases hemp : (rest.takeWhile isDig).isEmpty
      · rw [if_pos hemp] at h
        exact Option.noConfusion h
      · rw [if_neg hemp] at h
        rw [Bool.not_eq_true] at hemp
        simp only [Option.some_inj, Prod.mk.injEq] at h
        refine ⟨rest.takeWhile isDig,
          ⟨List.isEmpty_eq_false.mp hemp, fun d hd => List.mem_takeWhile_imp hd⟩,
          ?_, h.1.symm⟩
        rw [← h.2, List.takeWhile_append_dropWhile]
    · rw [if_neg hct] at h
      exact Option.noConfusion h

theorem matchSepTag_precise (tag : Nat) {ds : Str} (h1 : NonemptyDigits ds)
    {r : Str} (h2 : NoDigitHead r) :
    matchSepTag tag (95 :: tag :: (ds ++ r)) = some (digitsVal 0 ds, r) := by
  rw [matchSepTag, if_pos rfl]
  exact matchTag_precise tag h1 h2

theorem matchSepTag_inv {tag : Nat} {cs : Str} {v : Nat} {r : Str}
    (h : matchSepTag tag cs = some (v, r)) :
    ∃ ds, NonemptyDigits ds ∧ cs = 95 :: tag :: (ds ++ r) ∧ v = digitsVal 0 ds := by
  rcases cs with _ | ⟨c, rest⟩
  · rw [show matchSepTag tag ([] : Str) = none from rfl] at h
    exact Option.noConfusion h
  · rw [matchSepTag] at h
    by_cases hc : c = 95
    · rw [if_pos hc] at h
      subst hc
      obtain ⟨ds, hds, hrest, hv⟩ := matchTag_inv h
      exact ⟨ds, hds, by rw [hrest], hv⟩
    · rw [if_neg hc] at h
      exact Option.noConfusion h

theorem matchTags_nil (cs : Str) : matchTags [] cs = some ([], cs) := rfl

theorem matchTags_cons (t : Nat) (ts : List Nat) (cs : Str) :
    matchTags (t :: ts) cs =
      match matchSepTag t cs with
      | none => none
      | some (v, r) =>
        match matchTags ts r with
        | none => none
        | some (vs, r') => some (v :: vs, r') := rfl

theorem matchTags_step {t : Nat} {ts : List Nat} {cs : Str} {v : Nat} {r : Str}
    (h : matchSepTag t cs = some (v, r)) :
    matchTags (t :: ts) cs =
      match matchTags ts r with
      | none => none
      | some (vs, r') => some (v :: vs, r') := by
  rw [matchTags_cons, h]

theorem matchTags_precise (ps : List (Nat × Str)) (r : Str)
    (h : ∀ p ∈ ps, NonemptyDigits p.2) (hr : NoDigitHead r) :
    matchTags (ps.map Prod.fst) (tagged ps ++ r) =
      some (ps.map (fun p => digitsVal 0 p.2), r) := by
  induction ps with
  | nil => simp [matchTags_nil, tagged]
  | cons p rest ih =>
    obtain ⟨t, ds⟩ := p
    have hnd : NoDigitHead (tagged rest ++ r) := by
      rcases hrest : rest with _ | ⟨q, qs⟩
      · rw [tagged, List.nil_append]
        exact hr
      · exact noDigitHead_tagged _ (by simp) r
    rw [List.map_cons, tagged]
    simp only [List.cons_append, List.append_assoc]
    rw [matchTags_step (matchSepTag_precise t (h (t, ds) (by simp)) hnd),
      ih (fun p hp => h p (by simp [hp]))]
    rfl

theorem matchTags_isSome (ps : List (Nat × Str)) (r : Str)
    (h : ∀ p ∈ ps, NonemptyDigits p.2) :
    ∃ vs r', matchTags (ps.map Prod.fst) (tagged ps ++ r) = some (vs, r') ∧
      vs.length = ps.length := by
  induction ps with
  | nil => exact ⟨[], r, by simp [matchTags_nil, tagged], rfl⟩
  | cons p rest ih =>
    obtain ⟨t, ds⟩ := p
    have hds := h (t, ds) (by simp)
    rcases hrest : rest with _ | ⟨q, qs⟩
    · subst hrest
      obtain ⟨v, r', hm⟩ := matchTag_isSome t hds r
      refine ⟨[v], r', ?_, rfl⟩
      rw [List.map_cons, tagged]
      simp only [List.cons_append, List.append_assoc]
      have hsep : matchSepTag t (95 :: t :: (ds ++ (tagged [] ++ r))) = some (v, r') := by
        rw [matchSepTag, if_pos rfl, tagged, List.nil_append]
        exact hm
      rw [matchTags_step hsep, List.map_nil, matchTags_nil]
    · subst hrest
      obtain ⟨vs, r', hm, hlen⟩ := ih (fun p hp => h p (by simp [hp]))
      have hnd : NoDigitHead (tagged (q :: qs) ++ r) := noDigitHead_tagged _ (by simp) r
      refine ⟨digitsVal 0 ds :: vs, r', ?_, by simp [hlen]⟩
      rw [List.map_cons, tagged]
      simp only [List.cons_append, List.append_assoc]
      rw [matchTags_step (matchSepTag_precise t hds hnd), hm]

theorem matchTags_inv {ts : List Nat} {cs : Str} {vs : List Nat} {r : Str}
    (h : matchTags ts cs = some (vs, r)) :
    ∃ ps, ps.map Prod.fst = ts ∧ (∀ p ∈ ps, NonemptyDigits p.2) ∧
      cs = tagged ps ++ r ∧ vs = ps.map (fun p => digitsVal 0 p.2) := by
  induction ts generalizing cs vs r with
  | nil =>
    rw [matchTags_nil] at h
    simp only [Option.some_inj, Prod.mk.injEq] at h
    exact ⟨[], rfl, by simp, by rw [tagged, List.nil_append, h.2], by simp [h.1]⟩
  | cons t ts ih =>
    rcases hsep : matchSepTag t cs with _ | ⟨v, r1⟩
    · rw [matchTags_cons, hsep] at h
      exact Option.noConfusion h
    · rw [matchTags_step hsep] at h
      rcases hrec : matchTags ts r1 with _ | ⟨vs', r'⟩
      · rw [hrec] at h
        exact Option.noConfusion h
      · rw [hrec] at h
        simp only [Option.some_inj, Prod.mk.injEq] at h
        obtain ⟨ds, hds, hcs, hv⟩ := matchSepTag_inv hsep
        obtain ⟨ps', hfst, hdigs, hr1, hvs'⟩ := ih hrec
        refine ⟨(t, ds) :: ps', by simp [hfst], ?_, ?_, ?_⟩
        · intro p hp
          rcases List.mem_cons.mp hp with hp | hp
          · subst hp; exact hds
          · exact hdigs p hp
        · rw [hcs, hr1, tagged]
          simp [List.append_assoc, h.2]
        · rw [← h.1, List.map_cons]
          simp [hv, hvs']

theorem matchAt_eq (cs : Str) :
    matchAt cs =
      match matchTag 119 cs with
      | none => none
      | some (v, r) =>
        match matchTags [105, 111, 115, 101, 107, 103] r with
        | none => none
        | some (vs, r') => some (v :: vs, r') := rfl

theorem matchAt_step {cs : Str} {v : Nat} {r : Str}
    (h : matchTag 119 cs = some (v, r)) :
    matchAt cs =
      match matchTags [105, 111, 115, 101, 107, 103] r with
      | none => none
      | some (vs, r') => some (v :: vs, r') := by
  rw [matchAt_eq, h]

theorem matchAt_precise {d1 : Str} {ps : List (Nat × Str)}
    (hd1 : NonemptyDigits d1) (hps : ∀ p ∈ ps, NonemptyDigits p.2)
    (hfst : ps.map Prod.fst = [105, 111, 115, 101, 107, 103])
    {r : Str} (hr : NoDigitHead r) :
    matchAt ((119 :: (d1 ++ tagged ps)) ++ r) =
      some (digitsVal 0 d1 :: ps.map (fun p => digitsVal 0 p.2), r) := by
  have hpsne : ps ≠ [] := by
    intro hcon
    rw [hcon] at hfst
    simp at hfst
  have hnd : NoDigitHead (tagged ps ++ r) := noDigitHead_tagged ps hpsne r
  have h1 : (119 :: (d1 ++ tagged ps)) ++ r = 119 :: (d1 ++ (tagged ps ++ r)) := by
    simp [List.append_assoc]
  rw [h1, matchAt_step (matchTag_precise 119 hd1 hnd), ← hfst,
    matchTags_precise ps r hps hr]

theorem matchAt_isSome {m : Str} (h : GrammarExact m) (r : Str) :
    ∃ vs r', matchAt (m ++ r) = some (vs, r') ∧ vs.length = 7 := by
  obtain ⟨d1, ps, hd1, hps, hfst, hm⟩ := h
  have hpsne : ps ≠ [] := by
    intro hcon
    rw [hcon] at hfst
    simp at hfst
  have hnd : NoDigitHead (tagged ps ++ r) := noDigitHead_tagged ps hpsne r
  have hlen6 : ps.length = 6 := by
    have := congrArg List.length hfst
    simpa using this
  obtain ⟨vs, r', hsome, hlen⟩ := matchTags_isSome ps r hps
  subst hm
  have h1 : (119 :: (d1 ++ tagged ps)) ++ r = 119 :: (d1 ++ (tagged ps ++ r)) := by
    simp [List.append_assoc]
  refine ⟨digitsVal 0 d1 :: vs, r', ?_, by simp [hlen, hlen6]⟩
  rw [h1, matchAt_step (matchTag_precise 119 hd1 hnd), ← hfst, hsome]

theorem matchAt_inv {cs : Str} {vs : List Nat} {r : Str}
    (h : matchAt cs = some (vs, r)) :
    ∃ m, GrammarExact m ∧ cs = m ++ r ∧ vs.length = 7 := by
  rcases htag : matchTag 119 cs with _ | ⟨v, r1⟩
  · rw [matchAt_eq, htag] at h
    exact Option.noConfusion h
  · rw [matchAt_step htag] at h
    rcases hrec : matchTags [105, 111, 115, 101, 107, 103] r1 with _ | ⟨vs', r'⟩
    · rw [hrec] at h
      exact Option.noConfusion h
    · rw [hrec] at h
      simp only [Option.some_inj, Prod.mk.injEq] at h
      obtain ⟨d1, hd1, hcs, hv⟩ := matchTag_inv htag
      obtain ⟨ps, hfst, hps, hr1, hvs'⟩ := matchTags_inv hrec
      refine ⟨119 :: (d1 ++ tagged ps), ⟨d1, ps, hd1, hps, hfst, rfl⟩, ?_, ?_⟩
      · rw [hcs, hr1, h.2]
        simp [List.append_assoc]
      · rw [← h.1, hvs']
        have : ps.length = 6 := by
          have := congrArg List.length hfst
          simpa using this
        simp [this]

theorem findMatch_nil : findMatch [] = none := rfl

theorem findMatch_cons (c : Nat) (cs : Str) :
    findMatch (c :: cs) =
      match matchAt (c :: cs) with
      | some v => some v
      | none => findMatch cs := rfl

theorem findMatch_isSome_of (pre cs : Str) (h : ∃ v, matchAt cs = some v) :
    ∃ v', findMatch (pre ++ cs) = some v' := by
  induction pre with
  | nil =>
    obtain ⟨v, hv⟩ := h
    rcases cs with _ | ⟨c, rest⟩
    · rw [show matchAt ([] : Str) = none from rfl] at hv
      exact Option.noConfusion hv
    · rw [List.nil_append, findMatch_cons, hv]
      exact ⟨v, rfl⟩
  | cons p pre ih =>
    rw [List.cons_append, findMatch_cons]
    rcases hp : matchAt (p :: (pre ++ cs)) with _ | v
    · exact ih
    · exact ⟨v, rfl⟩

theorem findMatch_inv {cs : Str} {v : List Nat × Str} (h : findMatch cs = some v) :
    ∃ pre rest, cs = pre ++ rest ∧ matchAt rest = some v := by
  induction cs with
  | nil =>
    rw [findMatch_nil] at h
    exact Option.noConfusion h
  | cons c rest ih =>
    rw [findMatch_cons] at h
    rcases hm : matchAt (c :: rest) with _ | v'
    · rw [hm] at h
      obtain ⟨pre', rest', heq, hmm⟩ := ih h
      exact ⟨c :: pre', rest', by rw [heq, List.cons_append], hmm⟩
    · rw [hm] at h
      simp only [Option.some_inj] at h
      exact ⟨[], c :: rest, by simp, by rw [hm, h]⟩

theorem findMatch_length {cs : Str} {vs : List Nat} {r : Str}
    (h : findMatch cs = some (vs, r)) : vs.length = 7 := by
  obtain ⟨pre, rest, _, hm⟩ := findMatch_inv h
  obtain ⟨m, _, _, hlen⟩ := matchAt_inv hm
  exact hlen

theorem factory_eq (t : Str) :
    MobileBlock.factory t =
      match findMatch (lowerList t) with
      | some ([w, i, o, s, e, k, g], _) =>
        Except.ok { input_size := w, in_channels := i, out_channels := o,
                    stride := s, expansion := e, kernel := k, groups := g }
      | _ => Except.error (parseErrorMsg t) := rfl

theorem list_len7 {α : Type} {vs : List α} (h : vs.length = 7) :
    ∃ a1 a2 a3 a4 a5 a6 a7, vs = [a1, a2, a3, a4, a5, a6, a7] := by
  rcases vs with _ | ⟨a1, vs⟩
  · simp only [List.length_nil] at h
    omega
  rcases vs with _ | ⟨a2, vs⟩
  · simp only [List.length_cons, List.length_nil] at h
    omega
  rcases vs with _ | ⟨a3, vs⟩
  · simp only [List.length_cons, List.length_nil] at h
    omega
  rcases vs with _ | ⟨a4, vs⟩
  · simp only [List.length_cons, List.length_nil] at h
    omega
  rcases vs with _ | ⟨a5, vs⟩
  · simp only [List.length_cons, List.length_nil] at h
    omega
  rcases vs with _ | ⟨a6, vs⟩
  · simp only [List.length_cons, List.length_nil] at h
    omega
  rcases vs with _ | ⟨a7, vs⟩
  · simp only [List.length_cons, List.length_nil] at h
    omega
  rcases vs with _ | ⟨a8, vs⟩
  · exact ⟨a1, a2, a3, a4, a5, a6, a7, rfl⟩
  · simp only [List.length_cons, List.length_nil] at h
    omega

theorem factory_of_findMatch {t : Str} {vs : List Nat} {r : Str}
    (h : findMatch (lowerList t) = some (vs, r)) :
    ∃ b, MobileBlock.factory t = Except.ok b := by
  have hlen := findMatch_length h
  obtain ⟨a1, a2, a3, a4, a5, a6, a7, rfl⟩ := list_len7 hlen
  rw [factory_eq, h]
  exact ⟨_, rfl⟩

theorem factory_err {t : Str} (h : findMatch (lowerList t) = none) :
    MobileBlock.factory t = Except.error (parseErrorMsg t) := by
  rw [factory_eq, h]

theorem shuffleBlock_forward_apply {α : Type} (g n c h w : Nat)
    (x : Nat → Nat → Nat → Nat → α) (b i y z : Nat) :
    ShuffleBlock.forward g n c h w x b i y z = x b (shuffleIdx g c i) y z := rfl

theorem shuffleIdx_core (a b : Nat) (ha : 0 < a) (hb : 0 < b) :
    ∀ i, i < a * b → (i % a) * b + i / a < b * a ∧
      shuffleIdx b (b * a) ((i % a) * b + i / a) = i := by
  intro i hi
  have hA : i % a < a := Nat.mod_lt i ha
  have hB : i / a < b := by
    rw [Nat.div_lt_iff_lt_mul ha]
    calc i < a * b := hi
      _ = b * a := Nat.mul_comm a b
  have hout : (i % a) * b + i / a < b * a := by
    have h1 : (i % a) * b + b ≤ a * b := by
      have h2 : i % a + 1 ≤ a := hA
      calc (i % a) * b + b = (i % a + 1) * b := by ring
        _ ≤ a * b := Nat.mul_le_mul_right b h2
    have hcomm : a * b = b * a := Nat.mul_comm a b
    omega
  refine ⟨hout, ?_⟩
  rw [shuffleIdx]
  have hq : (b * a) / b = a := Nat.mul_div_cancel_left a hb
  rw [hq]
  have hmod : ((i % a) * b + i / a) % b = i / a := by
    rw [Nat.mul_comm (i % a) b, Nat.mul_add_mod]
    exact Nat.mod_eq_of_lt hB
  have hdiv : ((i % a) * b + i / a) / b = i % a := by
    rw [Nat.mul_comm (i % a) b, Nat.mul_add_div hb]
    rw [Nat.div_eq_of_lt hB]
    omega
  rw [hmod, hdiv]
  have hcomm2 : (i / a) * a = a * (i / a) := Nat.mul_comm (i / a) a
  have := Nat.div_add_mod i a
  omega

theorem shuffleIdx_lt {g c : Nat} (hg : 0 < g) (hdvd : g ∣ c) {i : Nat}
    (hi : i < c) : shuffleIdx g c i < c := by
  obtain ⟨q, rfl⟩ := hdvd
  have hq : 0 < q := by
    rcases Nat.eq_zero_or_pos q with h | h
    · subst h; omega
    · exact h
  have hcq : (g * q) / g = q := Nat.mul_div_cancel_left q hg
  have h1 : i < g * q := by omega
  have := (shuffleIdx_core g q hg hq i h1).1
  have hcomm : q * g = g * q := Nat.mul_comm q g
  rw [shuffleIdx, hcq]
  omega

theorem shuffleIdx_left_inverse {g c : Nat} (hg : 0 < g) (hdvd : g ∣ c)
    {i : Nat} (hi : i < c) :
    shuffleIdx (c / g) c (shuffleIdx g c i) = i := by
  obtain ⟨q, rfl⟩ := hdvd
  have hq : 0 < q := by
    rcases Nat.eq_zero_or_pos q with h | h
    · subst h; omega
    · exact h
  have hcg : g * q / g = q := Nat.mul_div_cancel_left q hg
  have hinner : shuffleIdx g (g * q) i = (i % g) * q + i / g := by
    rw [shuffleIdx, hcg]
  have hcore := (shuffleIdx_core g q hg hq i hi).2
  rw [hcg, hinner, show g * q = q * g from Nat.mul_comm g q]
  exact hcore

theorem shuffleIdx_inv_lt {g c : Nat} (hg : 0 < g) (hdvd : g ∣ c) {j : Nat}
    (hj : j < c) : shuffleIdx (c / g) c j < c := by
  obtain ⟨q, rfl⟩ := hdvd
  have hq : 0 < q := by
    rcases Nat.eq_zero_or_pos q with h | h
    · subst h; omega
    · exact h
  have hcg : g * q / g = q := Nat.mul_div_cancel_left q hg
  have hcq : g * q / q = g := by
    rw [Nat.mul_comm g q]
    exact Nat.mul_div_cancel_left g hq
  have hj' : j < q * g := by
    rw [Nat.mul_comm q g]
    exact hj
  have := (shuffleIdx_core q g hq hg j hj').1
  rw [shuffleIdx, hcg, hcq]
  omega

theorem shuffleIdx_right_inverse {g c : Nat} (hg : 0 < g) (hdvd : g ∣ c)
    {j : Nat} (hj : j < c) :
    shuffleIdx g c (shuffleIdx (c / g) c j) = j := by
  obtain ⟨q, rfl⟩ := hdvd
  have hq : 0 < q := by
    rcases Nat.eq_zero_or_pos q with h | h
    · subst h; omega
    · exact h
  have hcg : g * q / g = q := Nat.mul_div_cancel_left q hg
  have hcq : g * q / q = g := by
    rw [Nat.mul_comm g q]
    exact Nat.mul_div_cancel_left g hq
  have hj' : j < q * g := by
    rw [Nat.mul_comm q g]
    exact hj
  have hcore := (shuffleIdx_core q g hq hg j hj').2
  have hinner : shuffleIdx (g * q / g) (g * q) j = (j % q) * g + j / q := by
    rw [shuffleIdx, hcg, hcq]
  rw [hinner]
  exact hcore

theorem shuffleIdx_bijOn {g c : Nat} (hg : 0 < g) (hdvd : g ∣ c) :
    Set.BijOn (shuffleIdx g c) (Set.Iio c) (Set.Iio c) := by
  refine ⟨?_, ?_, ?_⟩
  · intro i hi
    exact shuffleIdx_lt hg hdvd hi
  · intro i hi j hj hij
    have h1 := shuffleIdx_left_inverse hg hdvd hi
    have h2 := shuffleIdx_left_inverse hg hdvd hj
    rw [← h1, ← h2, hij]
  · intro j hj
    exact ⟨shuffleIdx (c / g) c j, shuffleIdx_inv_lt hg hdvd hj,
      shuffleIdx_right_inverse hg hdvd hj⟩

theorem shuffleIdx_multiset_map {α : Type} {g c : Nat} (hg : 0 < g)
    (hdvd : g ∣ c) (f : Nat → α) :
    Multiset.map (fun i => f (shuffleIdx g c i)) (Multiset.range c) =
      Multiset.map f (Multiset.range c) := by
  have hperm : Multiset.map (shuffleIdx g c) (Multiset.range c) =
      Multiset.range c := by
    have hinj : Set.InjOn (shuffleIdx g c) (Finset.range c) := by
      intro i hi j hj hij
      rw [Finset.coe_range, Set.mem_Iio] at hi hj
      exact (shuffleIdx_bijOn hg hdvd).2.1 hi hj hij
    have hsub : (Finset.range c).image (shuffleIdx g c) ⊆ Finset.range c := by
      intro j hj
      rw [Finset.mem_image] at hj
      obtain ⟨i, hi, rfl⟩ := hj
      rw [Finset.mem_range] at hi ⊢
      exact shuffleIdx_lt hg hdvd hi
    have hcard : ((Finset.range c).image (shuffleIdx g c)).card =
        (Finset.range c).card := Finset.card_image_of_injOn hinj
    have heq : (Finset.range c).image (shuffleIdx g c) = Finset.range c :=
      Finset.eq_of_subset_of_card_le hsub (by omega)
    have hnodup : (Multiset.map (shuffleIdx g c) (Finset.range c).val).Nodup := by
      refine Multiset.Nodup.map_on ?_ (Finset.range c).nodup
      intro i hi j hj hij
      rw [Finset.mem_val, Finset.mem_range] at hi hj
      exact (shuffleIdx_bijOn hg hdvd).2.1 hi hj hij
    have himg := Finset.image_val (shuffleIdx g c) (Finset.range c)
    rw [Multiset.dedup_eq_self.mpr hnodup] at himg
    rw [← Finset.range_val c, ← himg, heq]
  calc Multiset.map (fun i => f (shuffleIdx g c i)) (Multiset.range c)
      = Multiset.map f (Multiset.map (shuffleIdx g c) (Multiset.range c)) := by
        rw [Multiset.map_map]
        rfl
    _ = Multiset.map f (Multiset.range c) := by rw [hperm]

theorem parseFactoryName_eq (name : Str) :
    parseFactoryName name =
      if name = strSkipBlock then some FactoryKind.skipBlock
      else
        match matchTag 75 name with
        | none => none
        | some (k, r) =>
          match matchTag 69 r with
          | none => none
          | some (e, r') =>
            match matchTag 71 r' with
            | none => none
            | some (g, r'') =>
              if r'' = strBlockWord then some (FactoryKind.kegBlock k e g)
              else none := rfl

theorem parseFactoryName_step1 {name : Str} (hns : name ≠ strSkipBlock)
    {k : Nat} {r : Str} (h : matchTag 75 name = some (k, r)) :
    parseFactoryName name =
      match matchTag 69 r with
      | none => none
      | some (e, r') =>
        match matchTag 71 r' with
        | none => none
        | some (g, r'') =>
          if r'' = strBlockWord then some (FactoryKind.kegBlock k e g)
          else none := by
  rw [parseFactoryName_eq, if_neg hns, h]

theorem parseFactoryName_step2 {r : Str} {e : Nat} {r2 : Str}
    (h : matchTag 69 r = some (e, r2)) (k : Nat) :
    (match matchTag 69 r with
     | none => none
     | some (e', r') =>
       match matchTag 71 r' with
       | none => none
       | some (g, r'') =>
         if r'' = strBlockWord then some (FactoryKind.kegBlock k e' g)
         else none) =
      match matchTag 71 r2 with
      | none => none
      | some (g, r'') =>
        if r'' = strBlockWord then some (FactoryKind.kegBlock k e g)
        else none := by
  rw [h]

theorem parseFactoryName_keg {d1 d2 d3 : Str} (h1 : NonemptyDigits d1)
    (h2 : NonemptyDigits d2) (h3 : NonemptyDigits d3) :
    parseFactoryName (75 :: (d1 ++ 69 :: (d2 ++ 71 :: (d3 ++ strBlockWord)))) =
      some (FactoryKind.kegBlock (digitsVal 0 d1) (digitsVal 0 d2)
        (digitsVal 0 d3)) := by
  have hns : (75 : Nat) :: (d1 ++ 69 :: (d2 ++ 71 :: (d3 ++ strBlockWord))) ≠
      strSkipBlock := by
    intro hcon
    rw [strSkipBlock] at hcon
    exact absurd (List.head_eq_of_cons_eq hcon) (by omega)
  have hnd69 : NoDigitHead (69 :: (d2 ++ 71 :: (d3 ++ strBlockWord))) := by
    intro c hc
    simp only [List.head?_cons, Option.some_inj] at hc
    subst hc
    rfl
  have hnd71 : NoDigitHead (71 :: (d3 ++ strBlockWord)) := by
    intro c hc
    simp only [List.head?_cons, Option.some_inj] at hc
    subst hc
    rfl
  have hndB : NoDigitHead strBlockWord := by
    intro c hc
    rw [strBlockWord] at hc
    simp only [List.head?_cons, Option.some_inj] at hc
    subst hc
    rfl
  rw [parseFactoryName_step1 hns (matchTag_precise 75 h1 hnd69),
    parseFactoryName_step2 (matchTag_precise 69 h2 hnd71),
    matchTag_precise 71 h3 hndB]
  simp

theorem blockFactory_factory_eq (name : Str) :
    BlockFactory.factory name =
      match parseFactoryName name with
      | some kind => Except.ok ⟨name, kind⟩
      | none => Except.error (parseErrorMsg name) := rfl

theorem blockFactory_factory_valid {name : Str} (h : ValidFactoryName name) :
    ∃ f, BlockFactory.factory name = Except.ok f ∧ f.block_name = name := by
  rcases h with ⟨d1, d2, d3, h1, h2, h3, rfl⟩ | rfl
  · rw [blockFactory_factory_eq, parseFactoryName_keg h1 h2 h3]
    exact ⟨_, rfl, rfl⟩
  · rw [blockFactory_factory_eq,
      show parseFactoryName strSkipBlock = some FactoryKind.skipBlock from rfl]
    exact ⟨_, rfl, rfl⟩

theorem nonemptyDigits_natRepr (n : Nat) : NonemptyDigits (natRepr n) :=
  ⟨natRepr_ne_nil n, natRepr_digits n⟩

theorem block_id_form (b : MobileBlock) :
    b.block_id = 119 :: (natRepr b.input_size ++
      tagged [(105, natRepr b.in_channels), (111, natRepr b.out_channels),
        (115, natRepr b.stride), (101, natRepr b.expansion),
        (107, natRepr b.kernel), (103, natRepr b.groups)]) := by
  rw [MobileBlock.block_id]
  simp [tagged, List.append_assoc]

theorem factory_block_id (b : MobileBlock) :
    MobileBlock.factory b.block_id = Except.ok b := by
  have hps : ∀ p ∈ [((105 : Nat), natRepr b.in_channels),
      (111, natRepr b.out_channels), (115, natRepr b.stride),
      (101, natRepr b.expansion), (107, natRepr b.kernel),
      (103, natRepr b.groups)], NonemptyDigits p.2 := by
    intro p hp
    simp only [List.mem_cons, List.not_mem_nil, or_false] at hp
    rcases hp with rfl | rfl | rfl | rfl | rfl | rfl <;>
      exact nonemptyDigits_natRepr _
  have hm := matchAt_precise (nonemptyDigits_natRepr b.input_size) hps rfl
    noDigitHead_nil
  rw [List.append_nil] at hm
  have hfm : findMatch b.block_id = some
      (digitsVal 0 (natRepr b.input_size) ::
        List.map (fun p => digitsVal 0 p.2)
          [((105 : Nat), natRepr b.in_channels), (111, natRepr b.out_channels),
           (115, natRepr b.stride), (101, natRepr b.expansion),
           (107, natRepr b.kernel), (103, natRepr b.groups)], []) := by
    rw [block_id_form, findMatch_cons, hm]
  rw [factory_eq, lowerList_block_id, hfm]
  show Except.ok
      { input_size := digitsVal 0 (natRepr b.input_size),
        in_channels := digitsVal 0 (natRepr b.in_channels),
        out_channels := digitsVal 0 (natRepr b.out_channels),
        stride := digitsVal 0 (natRepr b.stride),
        expansion := digitsVal 0 (natRepr b.expansion),
        kernel := digitsVal 0 (natRepr b.kernel),
        groups := digitsVal 0 (natRepr b.groups) } = Except.ok b
  simp only [digitsVal_natRepr]

theorem canonicalId_form {d1 d2 d3 d4 d5 d6 d7 : Str} :
    [(119 : Nat)] ++ d1 ++ [95, 105] ++ d2 ++ [95, 111] ++ d3 ++ [95, 115] ++ d4 ++
      [95, 101] ++ d5 ++ [95, 107] ++ d6 ++ [95, 103] ++ d7 =
    119 :: (d1 ++ tagged [(105, d2), (111, d3), (115, d4), (101, d5),
      (107, d6), (103, d7)]) := by
  simp [tagged, List.append_assoc]

theorem canonicalId_lower {t : Str} (h : CanonicalId t) : lowerList t = t := by
  obtain ⟨d1, d2, d3, d4, d5, d6, d7, h1, h2, h3, h4, h5, h6, h7, rfl⟩ := h
  refine lowerList_eq_self ?_
  intro c hc
  simp only [List.mem_append, List.mem_cons, List.not_mem_nil, or_false,
    or_assoc] at hc
  have hdig : ∀ ds : Str, CanonicalDigits ds → c ∈ ds → ¬(65 ≤ c ∧ c ≤ 90) := by
    intro ds hds hmem
    have := hds.2.1 c hmem
    simp only [isDig, Bool.and_eq_true, decide_eq_true_eq] at this
    omega
  rcases hc with h|h|h|h|h|h|h|h|h|h|h|h|h|h|h|h|h|h|h|h <;>
    first
      | (exact hdig _ h1 h)
      | (exact hdig _ h2 h)
      | (exact hdig _ h3 h)
      | (exact hdig _ h4 h)
      | (exact hdig _ h5 h)
      | (exact hdig _ h6 h)
      | (exact hdig _ h7 h)
      | omega

theorem factory_canonical {t : Str} (h : CanonicalId t) :
    ∃ b, MobileBlock.factory t = Except.ok b ∧ b.block_id = t := by
  have hlow := canonicalId_lower h
  obtain ⟨d1, d2, d3, d4, d5, d6, d7, h1, h2, h3, h4, h5, h6, h7, rfl⟩ := h
  have hps : ∀ p ∈ [((105 : Nat), d2), (111, d3), (115, d4), (101, d5),
      (107, d6), (103, d7)], NonemptyDigits p.2 := by
    intro p hp
    simp only [List.mem_cons, List.not_mem_nil, or_false] at hp
    rcases hp with rfl | rfl | rfl | rfl | rfl | rfl
    · exact ⟨h2.1, h2.2.1⟩
    · exact ⟨h3.1, h3.2.1⟩
    · exact ⟨h4.1, h4.2.1⟩
    · exact ⟨h5.1, h5.2.1⟩
    · exact ⟨h6.1, h6.2.1⟩
    · exact ⟨h7.1, h7.2.1⟩
  have hm := matchAt_precise ⟨h1.1, h1.2.1⟩ hps rfl noDigitHead_nil
  rw [List.append_nil] at hm
  have hfm : findMatch (lowerList ([(119 : Nat)] ++ d1 ++ [95, 105] ++ d2 ++
      [95, 111] ++ d3 ++ [95, 115] ++ d4 ++ [95, 101] ++ d5 ++ [95, 107] ++ d6 ++
      [95, 103] ++ d7)) = some
      (digitsVal 0 d1 :: List.map (fun p => digitsVal 0 p.2)
        [((105 : Nat), d2), (111, d3), (115, d4), (101, d5), (107, d6),
         (103, d7)], []) := by
    rw [hlow, canonicalId_form, findMatch_cons, hm]
  refine ⟨{ input_size := digitsVal 0 d1, in_channels := digitsVal 0 d2,
            out_channels := digitsVal 0 d3, stride := digitsVal 0 d4,
            expansion := digitsVal 0 d5, kernel := digitsVal 0 d6,
            groups := digitsVal 0 d7 }, ?_, ?_⟩
  · rw [factory_eq, hfm]
    rfl
  · rw [MobileBlock.block_id]
    simp only [natRepr_digitsVal d1 h1, natRepr_digitsVal d2 h2,
      natRepr_digitsVal d3 h3, natRepr_digitsVal d4 h4, natRepr_digitsVal d5 h5,
      natRepr_digitsVal d6 h6, natRepr_digitsVal d7 h7]

theorem stages_get3 (b : MobileBlock) :
    b.stages.get? 3 =
      some (if b.groups > 1 then Stage.shuffle b.groups else Stage.emptySeq) := rfl

theorem stages_groups_one {b : MobileBlock} (h : b.groups = 1) :
    b.stages.get? 3 = some Stage.emptySeq ∧
    ∀ (α : Type) (n c hh ww : Nat) (x : Nat → Nat → Nat → Nat → α),
      b.shuffleStageForward n c hh ww x = x := by
  constructor
  · rw [stages_get3, h]
    rfl
  · intro α n c hh ww x
    rw [MobileBlock.shuffleStageForward, if_neg (by omega)]

/-- C1: the block-id codec operations are mutual inverses: for every valid
`BlockSpec` (all seven fields positive), `MobileBlock.factory` applied to the
encoded `block_id` returns an equal block (reproducing all seven fields), and
for every canonically formatted string `t`, encoding the decoded block yields
`t` back. -/
theorem c1_codec_mutual_inverses :
    (∀ b : MobileBlock,
      0 < b.input_size ∧ 0 < b.in_channels ∧ 0 < b.out_channels ∧
        0 < b.stride ∧ 0 < b.expansion ∧ 0 < b.kernel ∧ 0 < b.groups →
      MobileBlock.factory b.block_id = Except.ok b) ∧
    (∀ t : Str, CanonicalId t →
      ∃ b, MobileBlock.factory t = Except.ok b ∧ b.block_id = t) :=
  ⟨fun b _ => factory_block_id b, fun _ h => factory_canonical h⟩

/-- C1 witness: both directions at concrete inputs — the spec
`(112, 16, 32, 1, 10, 3, 2)` round-trips through its id, and the canonical
string `"w112_i16_o32_s1_e10_k3_g2"` round-trips through decoding. -/
theorem c1_codec_mutual_inverses_witness :
    ((0 < 112 ∧ 0 < 16 ∧ 0 < 32 ∧ 0 < 1 ∧ 0 < 10 ∧ 0 < 3 ∧ 0 < 2) ∧
      MobileBlock.factory (MobileBlock.block_id ⟨112, 16, 32, 1, 10, 3, 2⟩) =
        Except.ok ⟨112, 16, 32, 1, 10, 3, 2⟩) ∧
    (CanonicalId strW112Id ∧
      ∃ b, MobileBlock.factory strW112Id = Except.ok b ∧
        b.block_id = strW112Id) := by
  have hcan : CanonicalId strW112Id :=
    ⟨[49, 49, 50], [49, 54], [51, 50], [49], [49, 48], [51], [50],
      by refine ⟨by decide, by decide, ?_⟩; intro rest hr; simp at hr,
      by refine ⟨by decide, by decide, ?_⟩; intro rest hr; simp at hr,
      by refine ⟨by decide, by decide, ?_⟩; intro rest hr; simp at hr,
      by refine ⟨by decide, by decide, ?_⟩; intro rest hr; simp at hr,
      by refine ⟨by decide, by decide, ?_⟩; intro rest hr; simp at hr,
      by refine ⟨by decide, by decide, ?_⟩; intro rest hr; simp at hr,
      by refine ⟨by decide, by decide, ?_⟩; intro rest hr; simp at hr,
      rfl⟩
  exact ⟨⟨by decide,
      c1_codec_mutual_inverses.1 ⟨112, 16, 32, 1, 10, 3, 2⟩ (by decide)⟩,
    hcan, c1_codec_mutual_inverses.2 strW112Id hcan⟩

/-- C2: for every `MobileBlock`, `block_id` is exactly the seven fields joined
by `_` in the fixed order `input_size, in_channels, out_channels, stride,
expansion, kernel, groups`, each field a single lowercase tag letter
(`w, i, o, s, e, k, g` = 119, 105, 111, 115, 101, 107, 103) immediately
followed by the decimal value of the field with no leading zeros. -/
theorem c2_block_id_format (b : MobileBlock) :
    ∃ d1 d2 d3 d4 d5 d6 d7 : Str,
      b.block_id = [119] ++ d1 ++ [95, 105] ++ d2 ++ [95, 111] ++ d3 ++
        [95, 115] ++ d4 ++ [95, 101] ++ d5 ++ [95, 107] ++ d6 ++
        [95, 103] ++ d7 ∧
      CanonicalDigits d1 ∧ CanonicalDigits d2 ∧ CanonicalDigits d3 ∧
      CanonicalDigits d4 ∧ CanonicalDigits d5 ∧ CanonicalDigits d6 ∧
      CanonicalDigits d7 ∧
      digitsVal 0 d1 = b.input_size ∧ digitsVal 0 d2 = b.in_channels ∧
      digitsVal 0 d3 = b.out_channels ∧ digitsVal 0 d4 = b.stride ∧
      digitsVal 0 d5 = b.expansion ∧ digitsVal 0 d6 = b.kernel ∧
      digitsVal 0 d7 = b.groups :=
  ⟨natRepr b.input_size, natRepr b.in_channels, natRepr b.out_channels,
    natRepr b.stride, natRepr b.expansion, natRepr b.kernel, natRepr b.groups,
    rfl,
    canonicalDigits_natRepr _, canonicalDigits_natRepr _,
    canonicalDigits_natRepr _, canonicalDigits_natRepr _,
    canonicalDigits_natRepr _, canonicalDigits_natRepr _,
    canonicalDigits_natRepr _,
    digitsVal_natRepr _, digitsVal_natRepr _, digitsVal_natRepr _,
    digitsVal_natRepr _, digitsVal_natRepr _, digitsVal_natRepr _,
    digitsVal_natRepr _⟩

/-- C3: `MobileBlock.factory` fails with a `ParseError` carrying the offending
input exactly when the lower-cased input contains no substring matching the
seven-field grammar; in particular it fails on `"not_a_valid_id"`, and on
failure no block is constructed (the result is the error, not an `ok`). -/
theorem c3_factory_parse_error :
    (∀ t : Str,
      MobileBlock.factory t = Except.error (parseErrorMsg t) ↔
        ¬∃ pre m post, lowerList t = pre ++ m ++ post ∧ GrammarExact m) ∧
    MobileBlock.factory strNotAValidId =
      Except.error (parseErrorMsg strNotAValidId) := by
  constructor
  · intro t
    constructor
    · intro herr ⟨pre, m, post, hdec, hgr⟩
      obtain ⟨vs, r', hma, _⟩ := matchAt_isSome hgr post
      obtain ⟨v', hfm⟩ := findMatch_isSome_of pre (m ++ post) ⟨_, hma⟩
      rw [← List.append_assoc, ← hdec] at hfm
      obtain ⟨vs2, r2⟩ := v'
      obtain ⟨b, hok⟩ := factory_of_findMatch hfm
      rw [herr] at hok
      exact Except.noConfusion hok
    · intro hno
      rcases hfm : findMatch (lowerList t) with _ | ⟨vs, r⟩
      · exact factory_err hfm
      · exfalso
        obtain ⟨pre, rest, hsplit, hma⟩ := findMatch_inv hfm
        obtain ⟨m, hgr, hrest, _⟩ := matchAt_inv hma
        exact hno ⟨pre, m, r, by rw [hsplit, hrest, List.append_assoc], hgr⟩
  · rfl

/-- C3 witness: the negative case instantiated — the theorem applied to
`"not_a_valid_id"` shows its lower-cased form contains no matching substring. -/
theorem c3_factory_parse_error_witness :
    ¬∃ pre m post, lowerList strNotAValidId = pre ++ m ++ post ∧
      GrammarExact m :=
  (c3_factory_parse_error.1 strNotAValidId).mp rfl

/-- C4: decoding is not anchored: any string containing a grammar-matching
substring is accepted (a block is constructed), and the block comes from the
first such match — on the two-match input
`"w1_i2_o3_s4_e5_k6_g7w8_i9_o10_s11_e12_k13_g14"` the constructed block is the
one of the first (leftmost) match. -/
theorem c4_not_anchored :
    (∀ t pre m post : Str, lowerList t = pre ++ m ++ post → GrammarExact m →
      ∃ b, MobileBlock.factory t = Except.ok b) ∧
    MobileBlock.factory strJunkedId = Except.ok ⟨1, 2, 3, 4, 5, 6, 7⟩ ∧
    MobileBlock.factory strDoubleId = Except.ok ⟨1, 2, 3, 4, 5, 6, 7⟩ := by
  refine ⟨?_, rfl, rfl⟩
  intro t pre m post hdec hgr
  obtain ⟨vs, r', hma, _⟩ := matchAt_isSome hgr post
  obtain ⟨v', hfm⟩ := findMatch_isSome_of pre (m ++ post) ⟨_, hma⟩
  rw [← List.append_assoc, ← hdec] at hfm
  obtain ⟨vs2, r2⟩ := v'
  exact factory_of_findMatch hfm

/-- C4 witness: the universal part applied to the concrete junk-wrapped input
`"xxw1_i2_o3_s4_e5_k6_g7yy"` with its explicit decomposition. -/
theorem c4_not_anchored_witness :
    ∃ b, MobileBlock.factory strJunkedId = Except.ok b :=
  c4_not_anchored.1 strJunkedId [120, 120]
    [119, 49, 95, 105, 50, 95, 111, 51, 95, 115, 52, 95, 101, 53, 95, 107, 54,
     95, 103, 55]
    [121, 121] rfl
    ⟨[49], [(105, [50]), (111, [51]), (115, [52]), (101, [53]), (107, [54]),
      (103, [55])],
      ⟨by decide, by decide⟩,
      by intro p hp; fin_cases hp <;> exact ⟨by decide, by decide⟩,
      rfl, rfl⟩

/-- C5: decoding is case-insensitive — `factory` accepts a string exactly when
it accepts its lower-cased form, with the same resulting block (in particular
the uppercase-tag id `"W112_I16_O32_S1_E10_K3_G2"` decodes to
`(112, 16, 32, 1, 10, 3, 2)`), and encoding always emits lowercase (the
`block_id` of every block is unchanged by lower-casing). -/
theorem c5_case_insensitive :
    (∀ (t : Str) (b : MobileBlock),
      MobileBlock.factory t = Except.ok b ↔
        MobileBlock.factory (lowerList t) = Except.ok b) ∧
    MobileBlock.factory strUpperId = Except.ok ⟨112, 16, 32, 1, 10, 3, 2⟩ ∧
    (∀ b : MobileBlock, lowerList b.block_id = b.block_id) := by
  refine ⟨?_, rfl, lowerList_block_id⟩
  intro t b
  have hfm : findMatch (lowerList (lowerList t)) = findMatch (lowerList t) := by
    rw [lowerList_idem]
  rcases hv : findMatch (lowerList t) with _ | ⟨vs, r⟩
  · rw [factory_err hv, factory_err (by rw [hfm.symm] at hv; exact hv)]
    constructor
    · intro hcon
      exact Except.noConfusion hcon
    · intro hcon
      exact Except.noConfusion hcon
  · have hlen := findMatch_length hv
    obtain ⟨a1, a2, a3, a4, a5, a6, a7, rfl⟩ := list_len7 hlen
    rw [factory_eq t, hv, factory_eq (lowerList t), hfm, hv]

/-- C6: shape law — a `MobileBlock` with `input_size = 112`,
`in_channels = 16`, `out_channels = 32`, `stride = 1`, `expansion = 10`,
`kernel = 3` and `groups` equal to 1 or 2 maps an input of shape
`(1, 16, 112, 112)` to an output of shape `(1, 32, 112, 112)`. -/
theorem c6_shape_law :
    MobileBlock.forwardShape ⟨112, 16, 32, 1, 10, 3, 1⟩ ⟨1, 16, 112, 112⟩ =
      some ⟨1, 32, 112, 112⟩ ∧
    MobileBlock.forwardShape ⟨112, 16, 32, 1, 10, 3, 2⟩ ⟨1, 16, 112, 112⟩ =
      some ⟨1, 32, 112, 112⟩ := by
  exact ⟨by decide, by decide⟩

/-- C7: for `g > 1` dividing the channel count `c`, `ShuffleBlock(g).forward`
permutes only the channel axis: the shape is preserved, every output entry at
`(b, i, y, z)` is the input entry at channel `(i % g) * (c / g) + i / g` of
the same batch/spatial position, the induced channel-index map is a bijection
of `{0, ..., c-1}`, and the multiset of values along the channel axis at each
(batch, spatial) position is unchanged. -/
theorem c7_shuffle_permutation {α : Type} (n c h w g : Nat)
    (x : Nat → Nat → Nat → Nat → α) (hg : 1 < g) (hdvd : g ∣ c) :
    Stage.shape (Stage.shuffle g) ⟨n, c, h, w⟩ = some ⟨n, c, h, w⟩ ∧
    (∀ b i y z, ShuffleBlock.forward g n c h w x b i y z =
      x b (shuffleIdx g c i) y z) ∧
    Set.BijOn (shuffleIdx g c) (Set.Iio c) (Set.Iio c) ∧
    (∀ b y z,
      Multiset.map (fun i => ShuffleBlock.forward g n c h w x b i y z)
        (Multiset.range c) =
      Multiset.map (fun i => x b i y z) (Multiset.range c)) := by
  refine ⟨?_, fun b i y z => rfl, shuffleIdx_bijOn (by omega) hdvd, ?_⟩
  · rw [Stage.shape, if_pos]
    refine ⟨by omega, ?_⟩
    obtain ⟨q, rfl⟩ := hdvd
    exact Nat.mul_mod_right g q
  · intro b y z
    exact shuffleIdx_multiset_map (by omega) hdvd (fun i => x b i y z)

/-- C7 witness: the theorem at `g = 2`, `c = 4` on a concrete array. -/
theorem c7_shuffle_permutation_witness :
    (1 < 2 ∧ (2 : Nat) ∣ 4) ∧
    (Stage.shape (Stage.shuffle 2) ⟨1, 4, 1, 1⟩ = some ⟨1, 4, 1, 1⟩ ∧
    (∀ b i y z,
      ShuffleBlock.forward 2 1 4 1 1 (fun _ i _ _ => i) b i y z =
        (fun _ i _ _ => i) b (shuffleIdx 2 4 i) y z) ∧
    Set.BijOn (shuffleIdx 2 4) (Set.Iio 4) (Set.Iio 4) ∧
    (∀ b y z,
      Multiset.map
        (fun i => ShuffleBlock.forward 2 1 4 1 1 (fun _ i _ _ => i) b i y z)
        (Multiset.range 4) =
      Multiset.map (fun i => (fun _ i _ _ => i) b i y z)
        (Multiset.range 4))) :=
  ⟨⟨by decide, by decide⟩,
    c7_shuffle_permutation 1 4 1 1 2 (fun _ i _ _ => i) (by decide) (by decide)⟩

/-- C8: when `groups == 1` the shuffle position of the pipeline holds the
empty `nn.Sequential()` stage — an identity pass-through leaving channel order
unchanged for any channel count — and a `ShuffleBlock` stage sits there only
when `groups > 1`. -/
theorem c8_shuffle_position (b : MobileBlock) :
    (b.groups = 1 →
      b.stages.get? 3 = some Stage.emptySeq ∧
      ∀ (α : Type) (n c hh ww : Nat) (x : Nat → Nat → Nat → Nat → α),
        b.shuffleStageForward n c hh ww x = x) ∧
    (∀ g, b.stages.get? 3 = some (Stage.shuffle g) → 1 < b.groups) := by
  constructor
  · exact stages_groups_one
  · intro g hsh
    by_contra hle
    rw [stages_get3, if_neg (by omega)] at hsh
    simp only [Option.some_inj] at hsh
    exact Stage.noConfusion hsh

/-- C8 witness: the theorem at a concrete block with `groups = 1`. -/
theorem c8_shuffle_position_witness :
    (MobileBlock.stages ⟨112, 16, 32, 1, 10, 3, 1⟩).get? 3 =
      some Stage.emptySeq ∧
    ∀ (α : Type) (n c hh ww : Nat) (x : Nat → Nat → Nat → Nat → α),
      MobileBlock.shuffleStageForward ⟨112, 16, 32, 1, 10, 3, 1⟩ n c hh ww x =
        x :=
  (c8_shuffle_position ⟨112, 16, 32, 1, 10, 3, 1⟩).1 rfl

/-- C9 (spec-modelled; `BlockFactory` and `SkipBlock` are not in `src/`):
for every valid factory name, `BlockFactory.factory(name).block_name` is the
input name verbatim; the factory for `"K3E10G2Block"` called with
`(112, 16, 32, 1)` yields a block whose `block_id` is
`"w112_i16_o32_s1_e10_k3_g2"`. -/
theorem c9_factory_name_roundtrip :
    (∀ name : Str, ValidFactoryName name →
      ∃ f, BlockFactory.factory name = Except.ok f ∧ f.block_name = name) ∧
    (∃ f, BlockFactory.factory strK3E10G2Block = Except.ok f ∧
      f.block_name = strK3E10G2Block ∧
      ∃ mb, f.call 112 16 32 1 = BuiltBlock.mobile mb ∧
        mb.block_id = strW112Id) :=
  ⟨fun _ h => blockFactory_factory_valid h,
    ⟨⟨strK3E10G2Block, FactoryKind.kegBlock 3 10 2⟩, rfl, rfl,
      ⟨112, 16, 32, 1, 10, 3, 2⟩, rfl, rfl⟩⟩

/-- C9 witness: the name round-trip applied to the concrete valid names
`"K3E10G2Block"` and `"SkipBlock"`. -/
theorem c9_factory_name_roundtrip_witness :
    (ValidFactoryName strK3E10G2Block ∧
      ∃ f, BlockFactory.factory strK3E10G2Block = Except.ok f ∧
        f.block_name = strK3E10G2Block) ∧
    (ValidFactoryName strSkipBlock ∧
      ∃ f, BlockFactory.factory strSkipBlock = Except.ok f ∧
        f.block_name = strSkipBlock) := by
  have h1 : ValidFactoryName strK3E10G2Block :=
    Or.inl ⟨[51], [49, 48], [50], ⟨by decide, by decide⟩,
      ⟨by decide, by decide⟩, ⟨by decide, by decide⟩, rfl⟩
  have h2 : ValidFactoryName strSkipBlock := Or.inr rfl
  exact ⟨⟨h1, c9_factory_name_roundtrip.1 strK3E10G2Block h1⟩,
    ⟨h2, c9_factory_name_roundtrip.1 strSkipBlock h2⟩⟩

/-- C10: constructing a `MobileBlock` with only `input_size`, `in_channels`,
`out_channels` and `stride` supplied leaves the defaults `expansion = 1`,
`kernel = 3`, `groups = 1`; hence its `block_id` ends with `"_e1_k3_g1"` and
its shuffle stage is the identity pass-through. -/
theorem c10_defaults (is ic oc st : Nat) :
    (MobileBlock.mk4 is ic oc st).expansion = 1 ∧
    (MobileBlock.mk4 is ic oc st).kernel = 3 ∧
    (MobileBlock.mk4 is ic oc st).groups = 1 ∧
    (∃ p, (MobileBlock.mk4 is ic oc st).block_id =
      p ++ [95, 101, 49, 95, 107, 51, 95, 103, 49]) ∧
    (MobileBlock.mk4 is ic oc st).stages.get? 3 = some Stage.emptySeq ∧
    ∀ (α : Type) (n c hh ww : Nat) (x : Nat → Nat → Nat → Nat → α),
      (MobileBlock.mk4 is ic oc st).shuffleStageForward n c hh ww x = x := by
  obtain ⟨hget, hfwd⟩ := @stages_groups_one (MobileBlock.mk4 is ic oc st) rfl
  refine ⟨rfl, rfl, rfl, ?_, hget, hfwd⟩
  refine ⟨[119] ++ natRepr is ++ [95, 105] ++ natRepr ic ++ [95, 111] ++
    natRepr oc ++ [95, 115] ++ natRepr st, ?_⟩
  rw [MobileBlock.block_id]
  show [119] ++ natRepr is ++ [95, 105] ++ natRepr ic ++ [95, 111] ++
      natRepr oc ++ [95, 115] ++ natRepr st ++ [95, 101] ++ [49] ++
      [95, 107] ++ [51] ++ [95, 103] ++ [49] = _
  simp [List.append_assoc]
